import Mathlib

/-!
Verification of the document ingestion / retrieval core of a retrieval-augmented
question-answering service (app/rag.py and app/utils.py).

Texts are embedded as lists of characters (Python strings are sequences of
characters); filenames and ids stay as Lean strings, on which only equality is
used.  Fallible operations return Except; the remote vector collection is
embedded as an explicit list-shaped state threaded through the operations.
-/

namespace RagCore

/-- Text content is a list of characters, mirroring Python str as a character sequence. -/
abbrev Text := List Char

/-- Chunk size configured in chunk_text (RecursiveCharacterTextSplitter chunk_size=500). -/
def CHUNK_SIZE : Nat := 500

/-- Chunk overlap configured in chunk_text (RecursiveCharacterTextSplitter chunk_overlap=50). -/
def CHUNK_OVERLAP : Nat := 50

/-- Separator list configured in chunk_text, in priority order; the final empty
separator means a character-level split is always available. -/
def SEPARATORS : List Text := [['\n', '\n'], ['\n'], ['.', ' '], ['!'], ['?'], [' '], []]

/-- Boolean test that the first list is an initial segment of the second. -/
def leadsWith : Text → Text → Bool
  | [], _ => true
  | _ :: _, [] => false
  | a :: as, b :: bs => a == b && leadsWith as bs

/-- Contiguous-substring relation: a occurs verbatim inside b. -/
def isSegmentOf (a b : Text) : Prop := ∃ pre suf, pre ++ a ++ suf = b

/-- Python str.split for a nonempty separator: leftmost, non-overlapping
occurrences, implemented with fuel for structural recursion (fuel is set to the
input length, which always suffices). -/
def pySplitAux (sep : Text) : Nat → Text → Text → List Text
  | _, acc, [] => [acc.reverse]
  | 0, acc, l => [acc.reverse ++ l]
  | fuel + 1, acc, c :: rest =>
      if leadsWith sep (c :: rest) then
        acc.reverse :: pySplitAux sep fuel [] (rest.drop (sep.length - 1))
      else
        pySplitAux sep fuel (c :: acc) rest

/-- Python str.split(sep) on character lists. -/
def pySplit (sep text : Text) : List Text := pySplitAux sep text.length [] text

/-- Split keeping the separator attached to the following piece, as the
splitter does when keep_separator is set: pieces p0, sep+p1, sep+p2, ... -/
def splitKeep (sep text : Text) : List Text :=
  match pySplit sep text with
  | [] => []
  | p :: ps => p :: ps.map (fun q => sep ++ q)

/-- Python str.strip(): remove whitespace from both ends. -/
def pyStrip (l : Text) : Text :=
  ((l.dropWhile Char.isWhitespace).reverse.dropWhile Char.isWhitespace).reverse

/-- Sum of the lengths of the held pieces (the splitter's running total; the
merge separator is empty because separators are kept on the pieces). -/
def totalLen (l : List Text) : Nat := (l.map List.length).sum

/-- Drop pieces from the front of the current window until the retained total
is within the overlap budget and the next piece fits, as the merge loop does. -/
def popOverlap (lenD : Nat) : Nat → List Text → Nat × List Text
  | total, [] => (total, [])
  | total, d :: rest =>
      if CHUNK_OVERLAP < total ∨ (CHUNK_SIZE < total + lenD ∧ 0 < total) then
        popOverlap lenD (total - d.length) rest
      else
        (total, d :: rest)

/-- Join the current window into one chunk, strip surrounding whitespace, and
drop it when nothing remains. -/
def joinDoc (cur : List Text) : List Text :=
  if pyStrip cur.flatten = [] then [] else [pyStrip cur.flatten]

/-- Merge loop of the splitter: accumulate pieces into windows of at most
CHUNK_SIZE characters, emitting a chunk and retaining at most CHUNK_OVERLAP
characters of overlap whenever the next piece would overflow. -/
def mergeGo : List Text → List Text → Nat → List Text → List Text
  | docs, cur, _, [] => docs ++ joinDoc cur
  | docs, cur, total, d :: rest =>
      if CHUNK_SIZE < total + d.length then
        let r := popOverlap d.length total cur
        mergeGo (docs ++ joinDoc cur) (r.2 ++ [d]) (r.1 + d.length) rest
      else
        mergeGo docs (cur ++ [d]) (total + d.length) rest

/-- Merge a list of sub-chunk-size pieces into chunks. -/
def mergeSplits (splits : List Text) : List Text := mergeGo [] [] 0 splits

/-- Iteration over the pieces produced by one separator: pieces below the size
limit accumulate and are merged; an oversized piece flushes the accumulator and
is re-split with the remaining separators (or kept whole when none remain). -/
def splitLoop (recurse : Text → List Text) (hasRec : Bool) :
    List Text → List Text → List Text → List Text
  | [], final, good => final ++ mergeSplits good
  | d :: ds, final, good =>
      if d.length < CHUNK_SIZE then
        splitLoop recurse hasRec ds final (good ++ [d])
      else if hasRec then
        splitLoop recurse hasRec ds (final ++ mergeSplits good ++ recurse d) []
      else
        splitLoop recurse hasRec ds (final ++ mergeSplits good ++ [d]) []

/-- Modelled from the spec: the repository delegates chunking to a recursive
character splitter (chunk_size 500, chunk_overlap 50, the separator list above),
whose implementation is a third-party dependency not under src/.  The splitter
picks the first separator occurring in the text (the final empty separator
splits into single characters), splits keeping separators, merges small pieces
with overlap, and recursively re-splits oversized pieces with the remaining
separators.  Fuel makes the recursion structural; SEPARATORS.length + 1 always
suffices. -/
def splitTextF : Nat → Text → List Text → List Text
  | 0, text, _ => [text]
  | _ + 1, text, [] =>
      if text.length < CHUNK_SIZE then mergeSplits [text] else [text]
  | fuel + 1, text, s :: rest =>
      if s = [] then
        mergeSplits (text.map (fun c => [c]))
      else if 1 < (pySplit s text).length then
        splitLoop (fun d => splitTextF fuel d rest) (!rest.isEmpty)
          ((splitKeep s text).filter (fun p => p ≠ [])) [] []
      else
        splitTextF fuel text rest

/-- split_text of the configured splitter. -/
def split_text (text : Text) : List Text :=
  splitTextF (SEPARATORS.length + 1) text SEPARATORS

/-- Chunk record: the dict with keys text and source built by chunk_text. -/
structure Chunk where
  text : Text
  source : String
deriving DecidableEq

/-- chunk_text: split the text and tag every chunk with the source name. -/
def chunk_text (text : Text) (source_name : String) : List Chunk :=
  (split_text text).map (fun c => { text := c, source := source_name })

-- sanity: a short text is one chunk; the empty text has none
example : chunk_text ['h', 'i'] "s" = [{ text := ['h', 'i'], source := "s" }] := by decide
example : chunk_text [] "s" = [] := by decide

theorem isSegmentOf_refl (a : Text) : isSegmentOf a a := ⟨[], [], by simp⟩

theorem isSegmentOf_trans {a b c : Text} (h1 : isSegmentOf a b) (h2 : isSegmentOf b c) :
    isSegmentOf a c := by
  obtain ⟨p1, s1, rfl⟩ := h1
  obtain ⟨p2, s2, rfl⟩ := h2
  exact ⟨p2 ++ p1, s1 ++ s2, by simp⟩

theorem segment_of_mem_flatten {d : Text} {L : List Text} (h : d ∈ L) :
    isSegmentOf d L.flatten := by
  induction L with
  | nil => cases h
  | cons x xs ih =>
    rcases List.mem_cons.mp h with rfl | hx
    · exact ⟨[], xs.flatten, by simp⟩
    · obtain ⟨p, s, hp⟩ := ih hx
      exact ⟨x ++ p, s, by simp [← hp]⟩

theorem segment_flatten_middle (pre mid suf : List Text) :
    isSegmentOf mid.flatten (pre ++ mid ++ suf).flatten :=
  ⟨pre.flatten, suf.flatten, by simp⟩

theorem dropWhile_segment (p : Char → Bool) (l : Text) : ∃ u, l = u ++ l.dropWhile p := by
  induction l with
  | nil => exact ⟨[], rfl⟩
  | cons c cs ih =>
    by_cases hc : p c = true
    · obtain ⟨u, hu⟩ := ih
      refine ⟨c :: u, ?_⟩
      simpa [List.dropWhile_cons, hc] using congrArg (c :: ·) hu
    · exact ⟨[], by simp [List.dropWhile_cons, hc]⟩

theorem pyStrip_segment (l : Text) : isSegmentOf (pyStrip l) l := by
  obtain ⟨u, hu⟩ := dropWhile_segment Char.isWhitespace l
  obtain ⟨v, hv⟩ :=
    dropWhile_segment Char.isWhitespace (l.dropWhile Char.isWhitespace).reverse
  refine ⟨u, v.reverse, ?_⟩
  have hm : l.dropWhile Char.isWhitespace = pyStrip l ++ v.reverse := by
    have h2 := congrArg List.reverse hv
    simpa [pyStrip, List.reverse_append] using h2
  conv_rhs => rw [hu, hm]
  simp

theorem pyStrip_length_le (l : Text) : (pyStrip l).length ≤ l.length := by
  obtain ⟨p, s, h⟩ := pyStrip_segment l
  have := congrArg List.length h
  simp [List.length_append] at this
  omega

theorem leadsWith_iff {a b : Text} : leadsWith a b = true ↔ ∃ t, a ++ t = b := by
  induction a generalizing b with
  | nil => simp [leadsWith]
  | cons c cs ih =>
    cases b with
    | nil => simp [leadsWith]
    | cons d ds =>
      simp only [leadsWith, Bool.and_eq_true, beq_iff_eq, ih, List.cons_append,
        List.cons.injEq]
      constructor
      · rintro ⟨rfl, t, rfl⟩; exact ⟨t, rfl, rfl⟩
      · rintro ⟨t, rfl, rfl⟩; exact ⟨rfl, t, rfl⟩

theorem pySplitAux_ne_nil (sep : Text) (fuel : Nat) (acc t : Text) :
    pySplitAux sep fuel acc t ≠ [] := by
  induction fuel generalizing acc t with
  | zero => cases t <;> simp [pySplitAux]
  | succ n ih =>
    cases t with
    | nil => simp [pySplitAux]
    | cons c rest =>
      simp only [pySplitAux]
      split
      · simp
      · exact ih _ _

/-- Reassembly function for split pieces: the inverse of splitting with a kept
separator. -/
def glueSep (sep : Text) : List Text → Text
  | [] => []
  | p :: ps => p ++ (ps.map (fun q => sep ++ q)).flatten

theorem glueSep_cons_cons (sep x p : Text) (ps : List Text) :
    glueSep sep (x :: p :: ps) = x ++ sep ++ glueSep sep (p :: ps) := by
  simp [glueSep]

theorem glueSep_pySplitAux (sep : Text) (hsep : sep ≠ []) :
    ∀ fuel acc t, t.length ≤ fuel →
      glueSep sep (pySplitAux sep fuel acc t) = acc.reverse ++ t := by
  intro fuel
  induction fuel with
  | zero =>
    intro acc t ht
    have : t = [] := List.length_eq_zero.mp (Nat.le_zero.mp ht)
    subst this
    simp [pySplitAux, glueSep]
  | succ n ih =>
    intro acc t ht
    cases t with
    | nil => simp [pySplitAux, glueSep]
    | cons c rest =>
      simp only [pySplitAux]
      split
      · rename_i hlw
        obtain ⟨t', ht'⟩ := leadsWith_iff.mp hlw
        obtain ⟨s0, ss⟩ := List.exists_cons_of_ne_nil hsep
        obtain ⟨ss', rfl⟩ := ss
        have hc : s0 = c ∧ ss' ++ t' = rest := by
          have := ht'
          simp [List.cons_append, List.cons.injEq] at this
          exact ⟨this.1, this.2⟩
        have hdrop : rest.drop ((s0 :: ss').length - 1) = t' := by
          rw [← hc.2]
          simp [List.drop_left]
        rw [hdrop]
        have hne := pySplitAux_ne_nil (s0 :: ss') n [] t'
        cases hp : pySplitAux (s0 :: ss') n [] t' with
        | nil => exact absurd hp hne
        | cons p ps =>
          rw [glueSep_cons_cons]
          have ht'n : t'.length ≤ n := by
            have := congrArg List.length hc.2
            simp [List.length_append] at this
            simp [List.length_cons] at ht
            omega
          have := ih [] t' ht'n
          rw [hp] at this
          rw [this]
          simp [← hc.1, ← hc.2, List.append_assoc]
      · rename_i hlw
        have := ih (c :: acc) rest (by simpa [List.length_cons] using Nat.le_of_succ_le_succ ht)
        rw [this]
        simp

theorem splitKeep_flatten (sep text : Text) (hsep : sep ≠ []) :
    (splitKeep sep text).flatten = text := by
  unfold splitKeep pySplit
  have h := glueSep_pySplitAux sep hsep text.length [] text (Nat.le_refl _)
  cases hp : pySplitAux sep text.length [] text with
  | nil => exact absurd hp (pySplitAux_ne_nil sep text.length [] text)
  | cons p ps =>
    rw [hp] at h
    simpa [glueSep] using h

theorem flatten_filter_ne_nil (L : List Text) :
    (L.filter (fun p => p ≠ [])).flatten = L.flatten := by
  induction L with
  | nil => rfl
  | cons x xs ih =>
    by_cases hx : x = []
    · subst hx
      simpa [List.filter_cons] using ih
    · simpa [List.filter_cons, hx] using congrArg (x ++ ·) ih

theorem totalLen_nil : totalLen [] = 0 := rfl

theorem totalLen_cons (d : Text) (l : List Text) :
    totalLen (d :: l) = d.length + totalLen l := by
  simp [totalLen]

theorem totalLen_append (a b : List Text) :
    totalLen (a ++ b) = totalLen a + totalLen b := by
  simp [totalLen]

theorem totalLen_flatten (l : List Text) : l.flatten.length = totalLen l := by
  simp [totalLen, List.length_flatten]

theorem popOverlap_inv (lenD : Nat) :
    ∀ cur total, total = totalLen cur →
      (popOverlap lenD total cur).1 = totalLen (popOverlap lenD total cur).2 := by
  intro cur
  induction cur with
  | nil =>
    intro total h
    simpa [popOverlap, totalLen_nil] using h
  | cons d rest ih =>
    intro total h
    simp only [popOverlap]
    split
    · exact ih (total - d.length) (by rw [h, totalLen_cons]; omega)
    · simpa using h

theorem popOverlap_bound (lenD : Nat) (hD : lenD < CHUNK_SIZE) :
    ∀ cur total, total = totalLen cur →
      (popOverlap lenD total cur).1 + lenD ≤ CHUNK_SIZE := by
  intro cur
  induction cur with
  | nil =>
    intro total h
    rw [totalLen_nil] at h
    simp [popOverlap, h]
    omega
  | cons d rest ih =>
    intro total h
    simp only [popOverlap]
    split
    · exact ih (total - d.length) (by rw [h, totalLen_cons]; omega)
    · rename_i hcond
      push_neg at hcond
      simp only []
      omega

theorem popOverlap_suffix (lenD : Nat) :
    ∀ cur total, ∃ pre, cur = pre ++ (popOverlap lenD total cur).2 := by
  intro cur
  induction cur with
  | nil => exact fun _ => ⟨[], rfl⟩
  | cons d rest ih =>
    intro total
    simp only [popOverlap]
    split
    · obtain ⟨pre, hp⟩ := ih (total - d.length)
      exact ⟨d :: pre, by rw [List.cons_append, ← hp]⟩
    · exact ⟨[], rfl⟩

theorem joinDoc_length_le (cur : List Text) : ∀ c ∈ joinDoc cur, c.length ≤ totalLen cur := by
  intro c hc
  unfold joinDoc at hc
  split at hc
  · cases hc
  · rw [List.mem_singleton] at hc
    subst hc
    calc (pyStrip cur.flatten).length ≤ cur.flatten.length := pyStrip_length_le _
      _ = totalLen cur := totalLen_flatten cur

theorem joinDoc_ne_nil (cur : List Text) : ∀ c ∈ joinDoc cur, c ≠ [] := by
  intro c hc
  unfold joinDoc at hc
  split at hc
  · cases hc
  · rw [List.mem_singleton] at hc
    subst hc
    assumption

theorem joinDoc_segment (cur : List Text) : ∀ c ∈ joinDoc cur, isSegmentOf c cur.flatten := by
  intro c hc
  unfold joinDoc at hc
  split at hc
  · cases hc
  · rw [List.mem_singleton] at hc
    subst hc
    exact pyStrip_segment _

theorem mergeGo_le :
    ∀ rem docs cur total, total = totalLen cur → total ≤ CHUNK_SIZE →
      (∀ d ∈ rem, d.length < CHUNK_SIZE) → (∀ c ∈ docs, c.length ≤ CHUNK_SIZE) →
      ∀ c ∈ mergeGo docs cur total rem, c.length ≤ CHUNK_SIZE := by
  intro rem
  induction rem with
  | nil =>
    intro docs cur total hinv hle _ hdocs c hc
    simp only [mergeGo] at hc
    rcases List.mem_append.mp hc with h | h
    · exact hdocs c h
    · exact le_trans (joinDoc_length_le cur c h) (hinv ▸ hle)
  | cons d ds ih =>
    intro docs cur total hinv hle hrem hdocs c hc
    have hd : d.length < CHUNK_SIZE := hrem d (List.mem_cons_self d ds)
    have hds : ∀ x ∈ ds, x.length < CHUNK_SIZE := fun x hx => hrem x (List.mem_cons_of_mem d hx)
    simp only [mergeGo] at hc
    split at hc
    · have hpop1 : (popOverlap d.length total cur).1 =
          totalLen (popOverlap d.length total cur).2 :=
        popOverlap_inv d.length cur total hinv
      have hbound := popOverlap_bound d.length hd cur total hinv
      refine ih _ _ _ ?_ hbound hds ?_ c hc
      · rw [totalLen_append, totalLen_cons, totalLen_nil, hpop1]; omega
      · intro x hx
        rcases List.mem_append.mp hx with h | h
        · exact hdocs x h
        · exact le_trans (joinDoc_length_le cur x h) (hinv ▸ hle)
    · rename_i hcond
      refine ih _ _ _ ?_ ?_ hds hdocs c hc
      · rw [totalLen_append, totalLen_cons, totalLen_nil, hinv]; omega
      · omega

theorem mergeSplits_le (splits : List Text) (h : ∀ d ∈ splits, d.length < CHUNK_SIZE) :
    ∀ c ∈ mergeSplits splits, c.length ≤ CHUNK_SIZE := by
  refine mergeGo_le splits [] [] 0 rfl ?_ h ?_
  · simp [CHUNK_SIZE]
  · intro c hc; cases hc

theorem mergeGo_ne_nil :
    ∀ rem docs cur total, (∀ c ∈ docs, c ≠ []) →
      ∀ c ∈ mergeGo docs cur total rem, c ≠ [] := by
  intro rem
  induction rem with
  | nil =>
    intro docs cur total hdocs c hc
    simp only [mergeGo] at hc
    rcases List.mem_append.mp hc with h | h
    · exact hdocs c h
    · exact joinDoc_ne_nil cur c h
  | cons d ds ih =>
    intro docs cur total hdocs c hc
    simp only [mergeGo] at hc
    split at hc
    · refine ih _ _ _ ?_ c hc
      intro x hx
      rcases List.mem_append.mp hx with h | h
      · exact hdocs x h
      · exact joinDoc_ne_nil cur x h
    · exact ih _ _ _ hdocs c hc

theorem mergeSplits_ne_nil (splits : List Text) : ∀ c ∈ mergeSplits splits, c ≠ [] := by
  refine mergeGo_ne_nil splits [] [] 0 ?_
  intro c hc; cases hc

theorem mergeGo_segment :
    ∀ rem docs cur total (full pre : List Text),
      full = pre ++ cur ++ rem →
      (∀ c ∈ docs, isSegmentOf c full.flatten) →
      ∀ c ∈ mergeGo docs cur total rem, isSegmentOf c full.flatten := by
  intro rem
  induction rem with
  | nil =>
    intro docs cur total full pre hfull hdocs c hc
    simp only [mergeGo] at hc
    rcases List.mem_append.mp hc with h | h
    · exact hdocs c h
    · refine isSegmentOf_trans (joinDoc_segment cur c h) ?_
      rw [hfull]
      exact segment_flatten_middle pre cur []
  | cons d ds ih =>
    intro docs cur total full pre hfull hdocs c hc
    simp only [mergeGo] at hc
    split at hc
    · obtain ⟨dropped, hdrop⟩ := popOverlap_suffix d.length cur total
      refine ih _ _ _ full (pre ++ dropped) ?_ ?_ c hc
      · rw [hfull]
        conv_lhs => rw [hdrop]
        simp
      · intro x hx
        rcases List.mem_append.mp hx with h | h
        · exact hdocs x h
        · refine isSegmentOf_trans (joinDoc_segment cur x h) ?_
          rw [hfull]
          exact segment_flatten_middle pre cur (d :: ds)
    · refine ih _ _ _ full pre ?_ hdocs c hc
      rw [hfull]; simp [List.append_assoc]

theorem mergeSplits_segment (splits : List Text) :
    ∀ c ∈ mergeSplits splits, isSegmentOf c splits.flatten := by
  refine mergeGo_segment splits [] [] 0 splits [] (by simp) ?_
  intro c hc; cases hc

theorem flatten_map_singleton (l : Text) : (l.map (fun c => [c])).flatten = l := by
  induction l with
  | nil => rfl
  | cons c cs ih => simp [ih]

theorem splitLoop_le (recurse : Text → List Text)
    (hrec : ∀ d, CHUNK_SIZE ≤ d.length → ∀ c ∈ recurse d, c.length ≤ CHUNK_SIZE) :
    ∀ splits final good,
      (∀ c ∈ final, c.length ≤ CHUNK_SIZE) → (∀ g ∈ good, g.length < CHUNK_SIZE) →
      ∀ c ∈ splitLoop recurse true splits final good, c.length ≤ CHUNK_SIZE := by
  intro splits
  induction splits with
  | nil =>
    intro final good hfin hgood c hc
    simp only [splitLoop] at hc
    rcases List.mem_append.mp hc with h | h
    · exact hfin c h
    · exact mergeSplits_le good hgood c h
  | cons d ds ih =>
    intro final good hfin hgood c hc
    simp only [splitLoop] at hc
    split at hc
    · rename_i hd
      refine ih _ _ hfin ?_ c hc
      intro g hg
      rcases List.mem_append.mp hg with h | h
      · exact hgood g h
      · rw [List.mem_singleton] at h; subst h; exact hd
    · rename_i hd
      split at hc
      · refine ih _ _ ?_ ?_ c hc
        · intro x hx
          rcases List.mem_append.mp hx with h | h
          · rcases List.mem_append.mp h with h2 | h2
            · exact hfin x h2
            · exact mergeSplits_le good hgood x h2
          · exact hrec d (Nat.le_of_not_lt hd) x h
        · intro g hg; cases hg
      · rename_i hfalse
        exact absurd trivial hfalse

theorem splitLoop_ne (recurse : Text → List Text)
    (hrec : ∀ d, CHUNK_SIZE ≤ d.length → ∀ c ∈ recurse d, c ≠ []) :
    ∀ splits final good, (∀ c ∈ final, c ≠ []) →
      ∀ c ∈ splitLoop recurse true splits final good, c ≠ [] := by
  intro splits
  induction splits with
  | nil =>
    intro final good hfin c hc
    simp only [splitLoop] at hc
    rcases List.mem_append.mp hc with h | h
    · exact hfin c h
    · exact mergeSplits_ne_nil good c h
  | cons d ds ih =>
    intro final good hfin c hc
    simp only [splitLoop] at hc
    split at hc
    · exact ih _ _ hfin c hc
    · rename_i hd
      split at hc
      · refine ih _ _ ?_ c hc
        intro x hx
        rcases List.mem_append.mp hx with h | h
        · rcases List.mem_append.mp h with h2 | h2
          · exact hfin x h2
          · exact mergeSplits_ne_nil good x h2
        · exact hrec d (Nat.le_of_not_lt hd) x h
      · rename_i hfalse
        exact absurd trivial hfalse

theorem splitLoop_segment (recurse : Text → List Text) (hasRec : Bool) (T : Text)
    (allS : List Text) (hall : isSegmentOf allS.flatten T)
    (hrec : ∀ d ∈ allS, ∀ c ∈ recurse d, isSegmentOf c d) :
    ∀ splits final good pre,
      allS = pre ++ good ++ splits →
      (∀ c ∈ final, isSegmentOf c T) →
      ∀ c ∈ splitLoop recurse hasRec splits final good, isSegmentOf c T := by
  intro splits
  induction splits with
  | nil =>
    intro final good pre hsplit hfin c hc
    simp only [splitLoop] at hc
    rcases List.mem_append.mp hc with h | h
    · exact hfin c h
    · refine isSegmentOf_trans (mergeSplits_segment good c h) (isSegmentOf_trans ?_ hall)
      rw [hsplit]
      exact segment_flatten_middle pre good []
  | cons d ds ih =>
    intro final good pre hsplit hfin c hc
    have hdall : d ∈ allS := by rw [hsplit]; simp
    simp only [splitLoop] at hc
    split at hc
    · refine ih _ _ pre ?_ hfin c hc
      rw [hsplit]; simp
    · split at hc
      · refine ih _ _ (pre ++ good ++ [d]) ?_ ?_ c hc
        · rw [hsplit]; simp
        · intro x hx
          rcases List.mem_append.mp hx with h | h
          · rcases List.mem_append.mp h with h2 | h2
            · exact hfin x h2
            · refine isSegmentOf_trans (mergeSplits_segment good x h2)
                (isSegmentOf_trans ?_ hall)
              rw [hsplit]
              exact segment_flatten_middle pre good (d :: ds)
          · exact isSegmentOf_trans (hrec d hdall x h)
              (isSegmentOf_trans (segment_of_mem_flatten hdall) hall)
      · refine ih _ _ (pre ++ good ++ [d]) ?_ ?_ c hc
        · rw [hsplit]; simp
        · intro x hx
          rcases List.mem_append.mp hx with h | h
          · rcases List.mem_append.mp h with h2 | h2
            · exact hfin x h2
            · refine isSegmentOf_trans (mergeSplits_segment good x h2)
                (isSegmentOf_trans ?_ hall)
              rw [hsplit]
              exact segment_flatten_middle pre good (d :: ds)
          · rw [List.mem_singleton] at h
            subst h
            exact isSegmentOf_trans (segment_of_mem_flatten hdall) hall

theorem splitTextF_le :
    ∀ fuel text seps, [] ∈ seps → seps.length < fuel →
      ∀ c ∈ splitTextF fuel text seps, c.length ≤ CHUNK_SIZE := by
  intro fuel
  induction fuel with
  | zero =>
    intro text seps _ h
    exact absurd h (Nat.not_lt_zero _)
  | succ n ih =>
    intro text seps hmem hlt
    cases seps with
    | nil => exact absurd hmem (List.not_mem_nil _)
    | cons s rest =>
      simp only [splitTextF]
      split
      · intro c hc
        refine mergeSplits_le _ ?_ c hc
        intro d hd
        obtain ⟨ch, _, rfl⟩ := List.mem_map.mp hd
        simp [CHUNK_SIZE]
      · rename_i hs
        have hmemr : [] ∈ rest := by
          rcases List.mem_cons.mp hmem with h | h
          · exact absurd h.symm hs
          · exact h
        have hltr : rest.length < n := by
          simp only [List.length_cons] at hlt
          omega
        split
        · have hre : (!rest.isEmpty) = true := by
            cases rest with
            | nil => exact absurd hmemr (List.not_mem_nil _)
            | cons a as => simp [List.isEmpty]
          rw [hre]
          intro c hc
          refine splitLoop_le _ ?_ _ [] [] ?_ ?_ c hc
          · intro d _ c' hc'
            exact ih d rest hmemr hltr c' hc'
          · intro x hx; cases hx
          · intro g hg; cases hg
        · exact ih text rest hmemr hltr

theorem splitTextF_ne :
    ∀ fuel text seps, [] ∈ seps → seps.length < fuel →
      ∀ c ∈ splitTextF fuel text seps, c ≠ [] := by
  intro fuel
  induction fuel with
  | zero =>
    intro text seps _ h
    exact absurd h (Nat.not_lt_zero _)
  | succ n ih =>
    intro text seps hmem hlt
    cases seps with
    | nil => exact absurd hmem (List.not_mem_nil _)
    | cons s rest =>
      simp only [splitTextF]
      split
      · exact mergeSplits_ne_nil _
      · rename_i hs
        have hmemr : [] ∈ rest := by
          rcases List.mem_cons.mp hmem with h | h
          · exact absurd h.symm hs
          · exact h
        have hltr : rest.length < n := by
          simp only [List.length_cons] at hlt
          omega
        split
        · have hre : (!rest.isEmpty) = true := by
            cases rest with
            | nil => exact absurd hmemr (List.not_mem_nil _)
            | cons a as => simp [List.isEmpty]
          rw [hre]
          refine splitLoop_ne _ ?_ _ [] [] ?_
          · intro d _ c' hc'
            exact ih d rest hmemr hltr c' hc'
          · intro x hx; cases hx
        · exact ih text rest hmemr hltr

theorem splitTextF_segment :
    ∀ fuel text seps, ∀ c ∈ splitTextF fuel text seps, isSegmentOf c text := by
  intro fuel
  induction fuel with
  | zero =>
    intro text seps c hc
    simp only [splitTextF, List.mem_singleton] at hc
    subst hc
    exact isSegmentOf_refl _
  | succ n ih =>
    intro text seps c hc
    cases seps with
    | nil =>
      simp only [splitTextF] at hc
      split at hc
      · have h := mergeSplits_segment [text] c hc
        simpa using h
      · rw [List.mem_singleton] at hc
        subst hc
        exact isSegmentOf_refl _
    | cons s rest =>
      simp only [splitTextF] at hc
      split at hc
      · have hseg := mergeSplits_segment _ c hc
        rwa [flatten_map_singleton] at hseg
      · split at hc
        · rename_i hs _
          have hall : isSegmentOf
              (((splitKeep s text).filter (fun p => p ≠ [])).flatten) text := by
            rw [flatten_filter_ne_nil, splitKeep_flatten s text hs]
            exact isSegmentOf_refl text
          refine splitLoop_segment (fun d => splitTextF n d rest) (!rest.isEmpty) text
            ((splitKeep s text).filter (fun p => p ≠ [])) hall ?_ _ [] [] []
            (by simp) ?_ c hc
          · intro d _ c' hc'
            exact ih d rest c' hc'
          · intro c' hc'; cases hc'
        · exact ih text rest c hc

theorem chunk_text_le (text : Text) (source : String) :
    ∀ ch ∈ chunk_text text source, ch.text.length ≤ CHUNK_SIZE := by
  intro ch hch
  obtain ⟨c, hc, rfl⟩ := List.mem_map.mp hch
  exact splitTextF_le _ text SEPARATORS (by decide) (Nat.lt_succ_self _) c hc

theorem chunk_text_ne (text : Text) (source : String) :
    ∀ ch ∈ chunk_text text source, ch.text ≠ [] := by
  intro ch hch
  obtain ⟨c, hc, rfl⟩ := List.mem_map.mp hch
  exact splitTextF_ne _ text SEPARATORS (by decide) (Nat.lt_succ_self _) c hc

theorem chunk_text_segment (text : Text) (source : String) :
    ∀ ch ∈ chunk_text text source, isSegmentOf ch.text text := by
  intro ch hch
  obtain ⟨c, hc, rfl⟩ := List.mem_map.mp hch
  exact splitTextF_segment _ text SEPARATORS c hc

theorem chunk_text_source (text : Text) (source : String) :
    ∀ ch ∈ chunk_text text source, ch.source = source := by
  intro ch hch
  obtain ⟨c, hc, rfl⟩ := List.mem_map.mp hch
  rfl

theorem chunk_text_nil (source : String) : chunk_text [] source = [] := by
  have h : split_text [] = [] := by decide
  simp [chunk_text, h]

/-!
PDF text extraction (extract_text_from_pdf in app/utils.py).  A page is either
extracted text (possibly empty, covering a None or empty result, both falsy in
Python) or a raised internal error.  The source wraps the whole page loop in a
single try block: an error is logged and the accumulated text so far is
returned from the finally-guarded exit, so pages after the failing one are
never visited.
-/

/-- Result of page.extract_text() for one page: text, or a raised error. -/
abbrev PageResult := Except Unit Text

instance {α : Type} [DecidableEq α] : DecidableEq (Except Unit α)
  | .error a, .error b => isTrue (by cases a; cases b; rfl)
  | .error _, .ok _ => isFalse (fun h => Except.noConfusion h)
  | .ok _, .error _ => isFalse (fun h => Except.noConfusion h)
  | .ok a, .ok b =>
      match decEq a b with
      | isTrue h => isTrue (by rw [h])
      | isFalse h => isFalse (fun hh => h (by injection hh))

/-- Loop body of extract_text_from_pdf: accumulate non-empty page texts each
followed by a newline; a raised error ends the loop with the text so far. -/
def pdfGo (acc : Text) : List PageResult → Text
  | [] => acc
  | .error _ :: _ => acc
  | .ok t :: rest => pdfGo (if t = [] then acc else acc ++ t ++ ['\n']) rest

/-- extract_text_from_pdf: concatenate extractable page text, stopping at the
first page whose extraction raises; the error is logged, never propagated. -/
def extract_text_from_pdf (pages : List PageResult) : Text := pdfGo [] pages

theorem pdfGo_append_error (post : List PageResult) :
    ∀ pre acc, (∀ p ∈ pre, p ≠ .error ()) →
      pdfGo acc (pre ++ .error () :: post) = pdfGo acc pre := by
  intro pre
  induction pre with
  | nil => intro acc _; rfl
  | cons p ps ih =>
    intro acc hok
    cases p with
    | error e =>
      cases e
      exact absurd rfl (hok _ (List.mem_cons_self _ _))
    | ok t =>
      simp only [List.cons_append, pdfGo]
      exact ih _ (fun q hq => hok q (List.mem_cons_of_mem _ hq))

/-!
Vector index client (ChromaManager in app/rag.py) and the retrieval function.
The remote collection is embedded as a list of entries; an entry records its
id, document text, and the value of the source metadata key when present.  The
where-filter, count, add and query semantics of the remote service are
modelled from the spec (section 4.3): count is the number of entries, the
source filter is exact match on the source metadata field, add appends
index-aligned entries, and query returns the top-n_results entries ranked by
the backend's distance for the query embedding, represented by an explicit
distance function on stored texts.
-/

/-- One indexed entry: (id, text, source-tag metadata when present). -/
structure Entry where
  id : String
  text : Text
  meta : Option String
deriving DecidableEq

/-- State of the remote collection. -/
abbrev Store := List Entry

namespace ChromaManager

/-- count(): total number of indexed entries. -/
def count (st : Store) : Nat := st.length

/-- get_ids_by_source: ids of the entries whose source metadata equals the tag. -/
def get_ids_by_source (st : Store) (source : String) : List String :=
  (st.filter (fun e => e.meta == some source)).map Entry.id

/-- delete_by_source: remove every entry whose source metadata equals the tag. -/
def delete_by_source (st : Store) (source : String) : Store :=
  st.filter (fun e => !(e.meta == some source))

/-- add: append index-aligned (id, document, metadata) triples. -/
def add (st : Store) (documents : List Text) (metadatas : List (Option String))
    (ids : List String) : Store :=
  st ++ List.zipWith3 (fun i t m => { id := i, text := t, meta := m }) ids documents metadatas

/-- Modelled from the spec: query embeds the query text and returns the
top-n_results closest entries (cosine ranking of the remote backend, not under
src/), represented by a distance function from stored texts to the query; ties
keep the backend's internal order, here the stable insertion-sort order. -/
def query (st : Store) (dist : Text → Nat) (n_results : Nat) : List Entry :=
  (List.insertionSort (fun a b => dist a.text ≤ dist b.text) st).take n_results

end ChromaManager

/-- Record shape returned by retrieve_context: a dict with text and source. -/
structure CtxRecord where
  text : Text
  source : String
deriving DecidableEq

/-- retrieve_context: query for the k nearest entries and shape each hit as a
text/source record, defaulting source to "unknown" when the metadata lacks the
source key (meta.get with default). -/
def retrieve_context (st : Store) (dist : Text → Nat) (k : Nat) : List CtxRecord :=
  (ChromaManager.query st dist k).map
    (fun e => { text := e.text, source := e.meta.getD "unknown" })

/-!
Ingestion pipeline (ingest_documents in app/rag.py).  A candidate file is
embedded as its basename, its lowercased extension (os.path.splitext) and the
outcome of text extraction (extracted text, or a raised per-file error).  The
directory listing and the explicit file list are the resolved candidate lists;
a missing directory is a None listing.  Backend faults are injected per
operation: the source catches and logs failures of the count() guard and of
the get/delete cleanup loop, while a failure of the final batched add
propagates; uuid4 id generation is a supplied id generator indexed by
position. -/

/-- One candidate file as the pipeline sees it after path resolution. -/
structure Candidate where
  filename : String
  ext : String
  extracted : Except Unit Text
deriving DecidableEq

/-- Supported extension whitelist of ingest_documents. -/
def supported_ext : List String := [".pdf", ".txt", ".md", ".docx"]

/-- Which backend calls raise, for exercising the error-handling paths. -/
structure Faults where
  countFails : Bool
  getFails : String → Bool
  deleteFails : String → Bool
  addFails : Bool

/-- A healthy backend: no operation raises. -/
def noFaults : Faults :=
  { countFails := false, getFails := fun _ => false
    deleteFails := fun _ => false, addFails := false }

/-- Arguments of ingest_documents: directory listing (none = missing
directory), optional explicit file list, and the force flag. -/
structure IngestArgs where
  doc_dir : Option (List Candidate)
  file_paths : Option (List Candidate)
  force : Bool

/-- Python truthiness of the file_paths argument (None and [] are falsy). -/
def IngestArgs.hasFiles (args : IngestArgs) : Bool :=
  match args.file_paths with
  | some (_ :: _) => true
  | _ => false

/-- Per-candidate loop of ingest_documents: skip unsupported extensions,
files whose extraction raises (caught and logged), empty extracted text and
empty chunk lists; otherwise accumulate the chunks and record the filename. -/
def processCandidates : List Candidate → List Chunk × List String
  | [] => ([], [])
  | c :: rest =>
      if c.ext ∈ supported_ext then
        match c.extracted with
        | .error _ => processCandidates rest
        | .ok t =>
            if t = [] then processCandidates rest
            else if chunk_text t c.filename = [] then processCandidates rest
            else (chunk_text t c.filename ++ (processCandidates rest).1,
                  c.filename :: (processCandidates rest).2)
      else processCandidates rest

/-- Pre-add cleanup loop: for each distinct processed source, look up existing
ids and delete them when present; a failure of either call is caught and
logged, leaving that source untouched. -/
def cleanupSources (faults : Faults) : Store → List String → Store
  | st, [] => st
  | st, src :: rest =>
      cleanupSources faults
        (if faults.getFails src then st
         else if ChromaManager.get_ids_by_source st src ≠ [] then
           (if faults.deleteFails src then st else ChromaManager.delete_by_source st src)
         else st)
        rest

/-- Candidate resolution: the explicit file list when truthy, else the
directory listing (none when the directory does not exist). -/
def resolveCandidates (args : IngestArgs) : Option (List Candidate) :=
  if args.hasFiles then some (args.file_paths.getD []) else args.doc_dir

/-- ingest_documents: guard on a populated index (unless force or an explicit
file list; a count() failure is logged and the pass continues), resolve
candidates, process them, clean up stale entries per distinct source, and add
all chunks in one batched call whose failure alone propagates.  Returns the
new store with (chunks added, distinct documents, processed filenames).
ingestProcess is the post-resolution tail of ingest_documents: process the
candidates, stop with zero counts when no chunks accumulated, clean up stale
entries per distinct processed source, then perform the single batched add. -/
def ingestProcess (st : Store) (faults : Faults) (uuidGen : Nat → String)
    (candidates : List Candidate) : Except Unit (Store × Nat × Nat × List String) :=
  if (processCandidates candidates).1 = [] then .ok (st, 0, 0, [])
  else if faults.addFails then .error ()
  else .ok
    (ChromaManager.add (cleanupSources faults st (processCandidates candidates).2.dedup)
      ((processCandidates candidates).1.map Chunk.text)
      ((processCandidates candidates).1.map (fun c => some c.source))
      ((List.range ((processCandidates candidates).1.map Chunk.text).length).map uuidGen),
     ((processCandidates candidates).1.map Chunk.text).length,
     (processCandidates candidates).2.dedup.length,
     (processCandidates candidates).2)

def ingest_documents (st : Store) (args : IngestArgs) (faults : Faults)
    (uuidGen : Nat → String) : Except Unit (Store × Nat × Nat × List String) :=
  if args.force = false ∧ args.hasFiles = false ∧ faults.countFails = false ∧
      0 < ChromaManager.count st then
    .ok (st, 0, 0, [])
  else
    match resolveCandidates args with
    | none => .ok (st, 0, 0, [])
    | some candidates => ingestProcess st faults uuidGen candidates

/-- A candidate that actually contributes chunks to the batch: supported
extension, extraction succeeds with non-empty text, and chunking is
non-empty. -/
def contributes (c : Candidate) : Prop :=
  c.ext ∈ supported_ext ∧
    ∃ t, c.extracted = .ok t ∧ t ≠ [] ∧ chunk_text t c.filename ≠ []

theorem processCandidates_nil :
    ∀ cs : List Candidate, (∀ c ∈ cs, ¬contributes c) → processCandidates cs = ([], []) := by
  intro cs
  induction cs with
  | nil => intro _; rfl
  | cons c rest ih =>
    intro h
    have hrest := ih (fun x hx => h x (List.mem_cons_of_mem c hx))
    have hc := h c (List.mem_cons_self c rest)
    by_cases hext : c.ext ∈ supported_ext
    · cases hxt : c.extracted with
      | error e => simp [processCandidates, hrest, hext, hxt]
      | ok t =>
        by_cases ht : t = []
        · simp [processCandidates, hrest, hext, hxt, ht]
        · by_cases hck : chunk_text t c.filename = []
          · simp [processCandidates, hrest, hext, hxt, ht, hck]
          · exact absurd ⟨hext, t, hxt, ht, hck⟩ hc
    · simp [processCandidates, hrest, hext]

theorem processCandidates_single (c : Candidate) (t : Text)
    (hext : c.ext ∈ supported_ext) (hxt : c.extracted = .ok t) (ht : t ≠ [])
    (hck : chunk_text t c.filename ≠ []) :
    processCandidates [c] = (chunk_text t c.filename, [c.filename]) := by
  simp [processCandidates, hext, hxt, ht, hck]

theorem delete_filter_nil (st : Store) (name : String) :
    (ChromaManager.delete_by_source st name).filter (fun e => e.meta == some name) = [] := by
  unfold ChromaManager.delete_by_source
  induction st with
  | nil => rfl
  | cons e es ih =>
    by_cases h : (e.meta == some name) = true
    · simp [List.filter_cons, h, ih]
    · simp [List.filter_cons, h, ih]

theorem get_ids_nil_filter (st : Store) (name : String)
    (h : ChromaManager.get_ids_by_source st name = []) :
    st.filter (fun e => e.meta == some name) = [] := by
  unfold ChromaManager.get_ids_by_source at h
  exact List.map_eq_nil_iff.mp h

theorem cleanup_single_filter (st : Store) (name : String) :
    (cleanupSources noFaults st [name]).filter (fun e => e.meta == some name) = [] := by
  have hstep : cleanupSources noFaults st [name] =
      (if ChromaManager.get_ids_by_source st name ≠ [] then
        ChromaManager.delete_by_source st name else st) := by
    simp [cleanupSources, noFaults]
  rw [hstep]
  split
  · exact delete_filter_nil st name
  · rename_i h
    rw [not_ne_iff] at h
    exact get_ids_nil_filter st name h

theorem zip_entries_spec (name : String) :
    ∀ (ids : List String) (texts : List Text) (metas : List (Option String)),
      ids.length = texts.length → texts.length = metas.length →
      (∀ m ∈ metas, m = some name) →
      ((List.zipWith3 (fun i t m => Entry.mk i t m) ids texts metas).filter
          (fun e => e.meta == some name)).map Entry.id = ids ∧
      ((List.zipWith3 (fun i t m => Entry.mk i t m) ids texts metas).filter
          (fun e => e.meta == some name)).map Entry.text = texts := by
  intro ids
  induction ids with
  | nil =>
    intro texts metas h1 h2 _
    have ht : texts = [] := List.length_eq_zero.mp h1.symm
    subst ht
    exact ⟨rfl, rfl⟩
  | cons i is ih =>
    intro texts metas h1 h2 hm
    cases texts with
    | nil => simp at h1
    | cons t ts =>
      cases metas with
      | nil => simp at h2
      | cons m ms =>
        have hmh : m = some name := hm m (List.mem_cons_self m ms)
        subst hmh
        have := ih ts ms (by simpa using h1) (by simpa using h2)
          (fun x hx => hm x (List.mem_cons_of_mem _ hx))
        simp only [List.zipWith3, List.filter_cons]
        simp only [beq_self_eq_true, if_pos]
        refine ⟨?_, ?_⟩
        · simpa using this.1
        · simpa using this.2

theorem ingest_documents_explicit (st : Store) (c : Candidate)
    (dir : Option (List Candidate)) (faults : Faults) (g : Nat → String) :
    ingest_documents st { doc_dir := dir, file_paths := some [c], force := false }
        faults g = ingestProcess st faults g [c] := by
  unfold ingest_documents
  rw [if_neg]
  · rfl
  · intro hcond
    simpa [IngestArgs.hasFiles] using hcond.2.1

end RagCore

namespace RagCore

/-- C8: for every source tag, chunking an empty input text yields an empty
sequence (not an error), and for every non-empty input each produced chunk
record carries a non-empty verbatim substring of the input as its text
together with the supplied source tag. -/
theorem chunk_text_shape :
    (∀ source, chunk_text [] source = []) ∧
    (∀ text source, ∀ ch ∈ chunk_text text source,
      ch.text ≠ [] ∧ ch.source = source ∧ isSegmentOf ch.text text) :=
  ⟨chunk_text_nil, fun text source ch hch =>
    ⟨chunk_text_ne text source ch hch, chunk_text_source text source ch hch,
     chunk_text_segment text source ch hch⟩⟩

theorem chunk_text_shape_witness :
    chunk_text [] "s" = [] ∧
    (({ text := ['h'], source := "s" } : Chunk).text ≠ [] ∧
      ({ text := ['h'], source := "s" } : Chunk).source = "s" ∧
      isSegmentOf ({ text := ['h'], source := "s" } : Chunk).text ['h']) :=
  ⟨chunk_text_shape.1 "s", chunk_text_shape.2 ['h'] "s" _ (by decide)⟩

set_option maxRecDepth 1000000 in
/-- C5 counterexample: consecutive chunks need not share a 50-character
overlap.  A text of 260 a-characters, a paragraph break, and 260 b-characters
is split at the paragraph boundary into two chunks with no shared characters
at all: the last 50 characters of the first chunk differ from the first 50 of
the second. -/
theorem chunk_overlap_counterexample :
    (chunk_text (List.replicate 260 'a' ++ '\n' :: '\n' :: List.replicate 260 'b')
        "f").map Chunk.text =
      [List.replicate 260 'a', List.replicate 260 'b'] ∧
    ¬((List.replicate 260 'a').drop 210 = (List.replicate 260 'b').take 50) := by
  constructor
  · decide
  · decide

/-- C5 (amended): every chunk produced by the chunker is at most 500
characters long; the final empty separator always provides a character-level
split point, so the bound holds unconditionally, and the configured
50-character overlap is an upper bound that consecutive chunks need not
attain. -/
theorem chunk_size_bound (text : Text) (source : String) :
    ∀ ch ∈ chunk_text text source, ch.text.length ≤ 500 :=
  chunk_text_le text source

theorem chunk_size_bound_witness :
    ({ text := ['h', 'i'], source := "s" } : Chunk) ∈ chunk_text ['h', 'i'] "s" ∧
    ({ text := ['h', 'i'], source := "s" } : Chunk).text.length ≤ 500 :=
  ⟨by decide, chunk_size_bound ['h', 'i'] "s" _ (by decide)⟩

/-- C4 counterexample: a page whose extraction raises does not leave the other
pages' text intact — the single try block wraps the whole page loop, so the
pages after the failing one are never read.  With pages [ok "a", error,
ok "b"], the result is "a\n" and the text of the third page is absent, against
the claim that every other page's extractable text is still concatenated. -/
theorem pdf_page_error_counterexample :
    extract_text_from_pdf [.ok ['a'], .error (), .ok ['b']] = ['a', '\n'] ∧
    'b' ∉ extract_text_from_pdf [.ok ['a'], .error (), .ok ['b']] := by
  constructor
  · decide
  · decide

/-- C4 (amended): a page whose text extraction raises contributes no text and
the error is not propagated (the extractor always returns the accumulated
text), the pages before the failing page keep their extractable text, but the
failing page aborts the loop, so the pages after it contribute nothing. -/
theorem pdf_error_truncates (pre post : List PageResult)
    (hok : ∀ p ∈ pre, p ≠ .error ()) :
    extract_text_from_pdf (pre ++ .error () :: post) = extract_text_from_pdf pre :=
  pdfGo_append_error post pre [] hok

theorem pdf_error_truncates_witness :
    extract_text_from_pdf ([.ok ['a']] ++ .error () :: [.ok ['b']]) =
      extract_text_from_pdf [.ok ['a']] :=
  pdf_error_truncates [.ok ['a']] [.ok ['b']] (by decide)

/-- Candidate for the C6 end-to-end scenario: the file sample.txt containing a
separator-free 600-character passage. -/
def sampleCand600 : Candidate :=
  { filename := "sample.txt", ext := ".txt", extracted := .ok (List.replicate 600 'a') }

set_option maxRecDepth 1000000 in
/-- C6: ingesting the single text file "sample.txt" whose extracted content is
a 600-character passage (without separator characters) produces exactly two
chunks — a 500-character chunk and a 150-character chunk sharing a
50-character overlap — each tagged source "sample.txt", and the call returns
chunk count 2, documents_count 1 and processed_files ["sample.txt"]. -/
theorem ingest_sample600_scenario :
    chunk_text (List.replicate 600 'a') "sample.txt" =
      [{ text := List.replicate 500 'a', source := "sample.txt" },
       { text := List.replicate 150 'a', source := "sample.txt" }] ∧
    (List.replicate 500 'a').drop 450 = (List.replicate 150 'a').take 50 ∧
    ingest_documents []
      { doc_dir := none, file_paths := some [sampleCand600], force := false }
      noFaults (fun n => if n = 0 then "id0" else "id1") =
      .ok ([{ id := "id0", text := List.replicate 500 'a', meta := some "sample.txt" },
            { id := "id1", text := List.replicate 150 'a', meta := some "sample.txt" }],
        2, 1, ["sample.txt"]) := by
  refine ⟨by decide, by decide, by decide⟩

end RagCore

namespace RagCore

/-- C2: when force is false, no explicit file list is given, and the count()
guard reports a populated index, ingest_documents returns (0, 0, []) at once,
leaving the store untouched, independently of the candidate files, the
extraction results and every other backend operation. -/
theorem ingest_skip_populated (st : Store) (args : IngestArgs) (faults : Faults)
    (uuidGen : Nat → String) (hforce : args.force = false)
    (hfiles : args.hasFiles = false) (hcount : faults.countFails = false)
    (hpop : 0 < ChromaManager.count st) :
    ingest_documents st args faults uuidGen = .ok (st, 0, 0, []) := by
  unfold ingest_documents
  rw [if_pos ⟨hforce, hfiles, hcount, hpop⟩]

/-- Entry and candidate used to witness the populated-index guard: the add
operation is even set to fail, showing that no index write is attempted. -/
def entryW : Entry := { id := "a", text := ['x'], meta := some "f" }

def candG : Candidate := { filename := "g.txt", ext := ".txt", extracted := .ok ['z'] }

def addFailFaults : Faults :=
  { countFails := false, getFails := fun _ => false
    deleteFails := fun _ => false, addFails := true }

theorem ingest_skip_populated_witness :
    ingest_documents [entryW]
      { doc_dir := some [candG], file_paths := none, force := false }
      addFailFaults (fun _ => "u") = .ok ([entryW], 0, 0, []) :=
  ingest_skip_populated _ _ _ _ rfl rfl rfl (by decide)

/-- C7: an ingestion pass over a missing directory, or over resolved
candidates none of which contributes (unsupported extension, extraction
raising, empty extracted text, or an empty chunk list), returns the successful
zero-count result (0, 0, []) with the store unchanged, never an error. -/
theorem ingest_zero_inputs (st : Store) (args : IngestArgs) (faults : Faults)
    (uuidGen : Nat → String)
    (h : resolveCandidates args = none ∨
      ∃ cs, resolveCandidates args = some cs ∧ ∀ c ∈ cs, ¬contributes c) :
    ingest_documents st args faults uuidGen = .ok (st, 0, 0, []) := by
  unfold ingest_documents
  split
  · rfl
  · rcases h with h | ⟨cs, hcs, hnc⟩
    · rw [h]
    · rw [hcs]
      show ingestProcess st faults uuidGen cs = _
      unfold ingestProcess
      rw [processCandidates_nil cs hnc]
      rfl

/-- Candidate whose extraction raises, used to witness the zero-count result. -/
def candErr : Candidate := { filename := "b.txt", ext := ".txt", extracted := .error () }

theorem ingest_zero_inputs_witness :
    ingest_documents [] { doc_dir := some [candErr], file_paths := none, force := true }
      noFaults (fun _ => "u") = .ok ([], 0, 0, []) := by
  refine ingest_zero_inputs _ _ _ _ (Or.inr ⟨[candErr], rfl, ?_⟩)
  intro c hc
  rw [List.mem_singleton] at hc
  subst hc
  rintro ⟨-, t, ht, -, -⟩
  cases ht

/-- C9: ingest_documents propagates a backend failure only from the final
batched add: with a healthy add every pass returns successfully whatever the
other faults do, a failing count() guard is caught and the pass continues
exactly as a forced pass would, and a failing add aborts a pass that reaches
the add step with the error. -/
theorem ingest_error_propagation :
    (∀ st args faults uuidGen, faults.addFails = false →
      ∃ r, ingest_documents st args faults uuidGen = .ok r) ∧
    (∀ st args faults uuidGen, faults.countFails = true →
      ingest_documents st args faults uuidGen =
        ingest_documents st { args with force := true } faults uuidGen) ∧
    (∀ st args faults uuidGen cs, faults.addFails = true → args.force = true →
      resolveCandidates args = some cs → (processCandidates cs).1 ≠ [] →
      ingest_documents st args faults uuidGen = .error ()) := by
  refine ⟨?_, ?_, ?_⟩
  · intro st args faults uuidGen hadd
    unfold ingest_documents
    split
    · exact ⟨_, rfl⟩
    · split
      · exact ⟨_, rfl⟩
      · unfold ingestProcess
        split
        · exact ⟨_, rfl⟩
        · rw [if_neg (by simp [hadd])]
          exact ⟨_, rfl⟩
  · intro st args faults uuidGen hcount
    unfold ingest_documents
    rw [if_neg (by simp [hcount]), if_neg (by simp)]
    rfl
  · intro st args faults uuidGen cs hadd hforce hres hpr
    unfold ingest_documents
    rw [if_neg (by simp [hforce])]
    split
    · rename_i heq
      simp [hres] at heq
    · rename_i cs2 heq
      rw [hres] at heq
      injection heq with h
      subst h
      unfold ingestProcess
      rw [if_neg hpr, if_pos hadd]

/-- Contributing candidate and fault settings used to witness the
error-propagation behavior of the pipeline. -/
def candW : Candidate := { filename := "w.txt", ext := ".txt", extracted := .ok ['w'] }

def countFailFaults : Faults :=
  { countFails := true, getFails := fun _ => false
    deleteFails := fun _ => false, addFails := false }

theorem ingest_error_propagation_witness :
    (∃ r, ingest_documents [] { doc_dir := none, file_paths := some [candW], force := false }
      noFaults (fun _ => "u") = .ok r) ∧
    (ingest_documents [entryW] { doc_dir := none, file_paths := some [candW], force := false }
        countFailFaults (fun _ => "u") =
      ingest_documents [entryW] { doc_dir := none, file_paths := some [candW], force := true }
        countFailFaults (fun _ => "u")) ∧
    (ingest_documents [] { doc_dir := none, file_paths := some [candW], force := true }
        addFailFaults (fun _ => "u") = .error ()) :=
  ⟨ingest_error_propagation.1 [] _ noFaults (fun _ => "u") rfl,
   ingest_error_propagation.2.1 [entryW] _ countFailFaults (fun _ => "u") rfl,
   ingest_error_propagation.2.2 [] _ addFailFaults (fun _ => "u") [candW] rfl rfl rfl
     (by decide)⟩

/-- C3: retrieve_context returns at most k records — exactly min k (index
size) — each a text/source record, ranked most similar first (non-decreasing
backend distance for the query), returning as many as are available when the
index holds fewer than k entries and the empty sequence on an empty index
instead of failing. -/
theorem retrieve_context_spec (st : Store) (dist : Text → Nat) (k : Nat) :
    (retrieve_context st dist k).length = min k st.length ∧
    List.Pairwise (fun a b : CtxRecord => dist a.text ≤ dist b.text)
      (retrieve_context st dist k) ∧
    (st = [] → retrieve_context st dist k = []) := by
  refine ⟨?_, ?_, ?_⟩
  · unfold retrieve_context ChromaManager.query
    rw [List.length_map, List.length_take, (List.perm_insertionSort _ st).length_eq]
  · unfold retrieve_context ChromaManager.query
    haveI h1 : IsTotal Entry (fun a b => dist a.text ≤ dist b.text) :=
      ⟨fun a b => Nat.le_total _ _⟩
    haveI h2 : IsTrans Entry (fun a b => dist a.text ≤ dist b.text) :=
      ⟨fun a b c hab hbc => Nat.le_trans hab hbc⟩
    have hs : List.Pairwise (fun a b => dist a.text ≤ dist b.text)
        (List.insertionSort (fun a b => dist a.text ≤ dist b.text) st) :=
      List.sorted_insertionSort _ st
    have hp := List.Pairwise.sublist (List.take_sublist k _) hs
    exact List.Pairwise.map _ (fun a b h => h) hp
  · intro h
    subst h
    simp [retrieve_context, ChromaManager.query, List.insertionSort]

theorem retrieve_context_spec_witness :
    (retrieve_context [] (fun _ => 0) 3).length = min 3 ([] : Store).length ∧
    List.Pairwise
      (fun a b : CtxRecord => (fun _ : Text => 0) a.text ≤ (fun _ : Text => 0) b.text)
      (retrieve_context [] (fun _ => 0) 3) ∧
    (([] : Store) = [] → retrieve_context [] (fun _ => 0) 3 = []) :=
  retrieve_context_spec [] (fun _ => 0) 3

/-- C10: every record returned by retrieve_context takes its text from a
stored entry and its source from that entry's source metadata, defaulting to
the string "unknown" when the backend metadata lacks the source key, rather
than being absent or failing. -/
theorem retrieve_source_default (st : Store) (dist : Text → Nat) (k : Nat) :
    ∀ r ∈ retrieve_context st dist k,
      ∃ e ∈ st, r.text = e.text ∧ r.source = e.meta.getD "unknown" := by
  intro r hr
  obtain ⟨e, he, rfl⟩ := List.mem_map.mp hr
  refine ⟨e, ?_, rfl, rfl⟩
  have h1 := List.take_subset k _ he
  exact (List.perm_insertionSort _ st).mem_iff.mp h1

/-- Entry without a source metadata key, used to witness the default. -/
def entryNoMeta : Entry := { id := "i", text := ['a'], meta := none }

theorem retrieve_source_default_witness :
    ({ text := ['a'], source := "unknown" } : CtxRecord) ∈
      retrieve_context [entryNoMeta] (fun _ => 0) 1 ∧
    ∃ e ∈ [entryNoMeta],
      ({ text := ['a'], source := "unknown" } : CtxRecord).text = e.text ∧
      ({ text := ['a'], source := "unknown" } : CtxRecord).source = e.meta.getD "unknown" :=
  ⟨by decide, retrieve_source_default [entryNoMeta] (fun _ => 0) 1 _ (by decide)⟩

end RagCore

namespace RagCore

theorem processCandidates_single_fst (c : Candidate) (t : Text)
    (hext : c.ext ∈ supported_ext) (hxt : c.extracted = .ok t) (ht : t ≠ [])
    (hck : chunk_text t c.filename ≠ []) :
    (processCandidates [c]).1 = chunk_text t c.filename := by
  rw [processCandidates_single c t hext hxt ht hck]

theorem processCandidates_single_snd (c : Candidate) (t : Text)
    (hext : c.ext ∈ supported_ext) (hxt : c.extracted = .ok t) (ht : t ≠ [])
    (hck : chunk_text t c.filename ≠ []) :
    (processCandidates [c]).2 = [c.filename] := by
  rw [processCandidates_single c t hext hxt ht hck]

/-- C1: an ingestion pass that reaches the upsert step looks up and deletes
the existing entries of every distinct processed filename before the single
batched add, so re-ingesting the same filename twice (here via the explicit
upload path) with different content leaves exactly the second pass's chunks
retrievable under that source tag — get_ids_by_source returns exactly the
second pass's freshly generated ids and the stored texts under the tag are
exactly the second content's chunks — and none from the first pass. -/
theorem ingest_reingest_replaces (st0 st1 st2 : Store) (c1 c2 : Candidate)
    (g1 g2 : Nat → String) (out1 out2 : Nat × Nat × List String)
    (hname : c1.filename = c2.filename)
    (h1 : ingest_documents st0 { doc_dir := none, file_paths := some [c1], force := false }
        noFaults g1 = .ok (st1, out1))
    (hext : c2.ext ∈ supported_ext) (t2 : Text) (ht2 : c2.extracted = .ok t2)
    (hck : chunk_text t2 c2.filename ≠ [])
    (h2 : ingest_documents st1 { doc_dir := none, file_paths := some [c2], force := false }
        noFaults g2 = .ok (st2, out2)) :
    ChromaManager.get_ids_by_source st2 c2.filename =
      (List.range (chunk_text t2 c2.filename).length).map g2 ∧
    (st2.filter (fun e => e.meta == some c2.filename)).map Entry.text =
      (chunk_text t2 c2.filename).map Chunk.text := by
  have ht2ne : t2 ≠ [] := by
    intro h
    apply hck
    rw [h, chunk_text_nil]
  rw [ingest_documents_explicit] at h2
  unfold ingestProcess at h2
  rw [processCandidates_single_fst c2 t2 hext ht2 ht2ne hck,
    processCandidates_single_snd c2 t2 hext ht2 ht2ne hck] at h2
  rw [if_neg hck, if_neg (by decide : ¬(noFaults.addFails = true))] at h2
  injection h2 with h2p
  injection h2p with hA hrest
  subst hA
  have hded : (List.dedup [c2.filename]) = [c2.filename] := by simp
  rw [hded]
  have hmetas : ∀ m ∈ (chunk_text t2 c2.filename).map (fun c => some c.source),
      m = some c2.filename := by
    intro m hm
    obtain ⟨c, hc, rfl⟩ := List.mem_map.mp hm
    rw [chunk_text_source t2 c2.filename c hc]
  have hzip := zip_entries_spec c2.filename
    ((List.range ((chunk_text t2 c2.filename).map Chunk.text).length).map g2)
    ((chunk_text t2 c2.filename).map Chunk.text)
    ((chunk_text t2 c2.filename).map (fun c => some c.source))
    (by simp) (by simp) hmetas
  constructor
  · simp only [ChromaManager.get_ids_by_source, ChromaManager.add, List.filter_append,
      List.map_append]
    rw [cleanup_single_filter, hzip.1]
    simp
  · simp only [ChromaManager.add, List.filter_append, List.map_append]
    rw [cleanup_single_filter, hzip.2]
    simp

/-- Concrete inputs for the re-ingestion witness: the same filename uploaded
twice with different one-character contents. -/
def candA : Candidate := { filename := "sample.txt", ext := ".txt", extracted := .ok ['x'] }

def candB : Candidate := { filename := "sample.txt", ext := ".txt", extracted := .ok ['y'] }

def entryA : Entry := { id := "a", text := ['x'], meta := some "sample.txt" }

def entryB : Entry := { id := "b", text := ['y'], meta := some "sample.txt" }

theorem ingest_reingest_replaces_witness :
    ChromaManager.get_ids_by_source [entryB] "sample.txt" =
      (List.range (chunk_text ['y'] "sample.txt").length).map (fun _ => "b") ∧
    (([entryB] : Store).filter (fun e => e.meta == some "sample.txt")).map Entry.text =
      (chunk_text ['y'] "sample.txt").map Chunk.text :=
  ingest_reingest_replaces [] [entryA] [entryB] candA candB (fun _ => "a") (fun _ => "b")
    (1, 1, ["sample.txt"]) (1, 1, ["sample.txt"]) rfl (by decide) (by decide) ['y'] rfl
    (by decide) (by decide)

end RagCore
